import Mathlib

/-!
Shallow embedding of `stack_pool.hpp`: many singly-linked stacks share one
growable array of `(value, next)` nodes.  Handles are 1-based indices into
the array (`node(x) = pool[x - 1]`); the value `0` is the sentinel meaning
"empty stack / end of iteration".

Modelling conventions:
* the backing `std::vector<node_t>` is a `List (node_t T)` plus a `cap`
  field modelling the vector's allocated capacity;
* machine indices are `Nat`; the C++ expression `pool[x - 1]` for `x = 0`
  indexes at `SIZE_MAX` (unsigned wrap-around), which is out of bounds for
  any real vector, so node access at the sentinel yields `none`;
* operations whose C++ counterpart has undefined behaviour on an invalid
  handle return `none`;
* the diagnostic facility `AP_ERROR` is an external collaborator
  (`ap_error.hpp` is not part of the analysed source).  Modelled from the
  spec: a failed check reports an error and diverts control flow so the
  operation does not continue, hence a checked operation whose check fails
  returns `none` and produces no successor state.
-/

/-- Source `struct node_t { value_type value; stack_type next; }`. -/
structure node_t (T : Type) where
  value : T
  next : Nat
deriving DecidableEq, Repr

/-- Source `class stack_pool`: member `pool` is the node vector, member
`free_nodes` is the head handle of the free list.  `cap` models the
vector's allocated capacity (`pool.capacity()` in C++). -/
structure stack_pool (T : Type) where
  pool : List (node_t T)
  free_nodes : Nat
  cap : Nat
deriving DecidableEq, Repr

variable {T : Type}

/-- Source `end()`: returns `stack_type{0}`, the top of an empty stack. -/
def stack_pool.endH : Nat := 0

/-- Source `empty(x)`: `x == end()`. -/
def stack_pool.emptyH (x : Nat) : Bool := x == stack_pool.endH

/-- Source `new_stack()`: returns `end()`. -/
def stack_pool.new_stack : Nat := stack_pool.endH

/-- Source `node(x)`: `pool[x - 1]`, unchecked.  For `x = 0` the C++
index wraps to `SIZE_MAX` and is out of bounds: modelled as `none`. -/
def stack_pool.nodeOf (p : stack_pool T) (x : Nat) : Option (node_t T) :=
  if x = 0 then none else p.pool[x - 1]?

/-- Writing through `node(x)` (e.g. `value(free_nodes) = val`,
`next(tmp) = free_nodes`): in bounds it updates slot `x - 1`, out of
bounds it is undefined behaviour (`none`). -/
def stack_pool.setNode (p : stack_pool T) (x : Nat) (nd : node_t T) :
    Option (stack_pool T) :=
  if x ≠ 0 ∧ x ≤ p.pool.length then
    some { p with pool := p.pool.set (x - 1) nd }
  else none

/-- Source `value(x)`: `AP_ERROR(!empty(x))` then `node(x).value`.  The
`none` on the sentinel is the diagnostic-failure path; no state is read or
written before the check. -/
def stack_pool.value (p : stack_pool T) (x : Nat) : Option T :=
  if stack_pool.emptyH x then none
  else (p.nodeOf x).map node_t.value

/-- Source `next(x)`: `node(x).next`, no check at all. -/
def stack_pool.nextOf (p : stack_pool T) (x : Nat) : Option Nat :=
  (p.nodeOf x).map node_t.next

/-- Models `std::vector` growth on `push_back`: capacity is unchanged when
a slot is available, otherwise grows geometrically (libstdc++ doubles).
The exact growth formula is implementation-defined in C++; the theorems
below rely only on the capacity being unchanged when nothing is appended. -/
def vecGrow (cap len : Nat) : Nat :=
  if len + 1 ≤ cap then cap else max (2 * cap) (len + 1)

/-- Source `_push(val, head)`: if the free list is empty, append
`{val, head}` and return the new vector size; otherwise overwrite the
value of the first free node, splice it out of the free list onto the
stack (`move_head(free_nodes, head)`), and return its handle. -/
def stack_pool._push (p : stack_pool T) (val : T) (head : Nat) :
    Option (Nat × stack_pool T) :=
  if stack_pool.emptyH p.free_nodes then
    some (p.pool.length + 1,
      { pool := p.pool ++ [⟨val, head⟩],
        free_nodes := p.free_nodes,
        cap := vecGrow p.cap p.pool.length })
  else do
    let nd ← p.nodeOf p.free_nodes
    let p1 ← p.setNode p.free_nodes ⟨val, head⟩
    some (p.free_nodes, { p1 with free_nodes := nd.next })

/-- Source `push(val, head)`: both overloads forward to `_push`. -/
def stack_pool.push (p : stack_pool T) (val : T) (head : Nat) :
    Option (Nat × stack_pool T) :=
  p._push val head

/-- Source `pop(x)`: `AP_ERROR(!empty(x))`, then `move_head(x, free_nodes)`
and return the updated `x`.  Net effect: `node(x).next := free_nodes`,
`free_nodes := x`, return the old `node(x).next`.  The `none` on the
sentinel is the diagnostic-failure path, taken before any mutation. -/
def stack_pool.pop (p : stack_pool T) (x : Nat) :
    Option (Nat × stack_pool T) :=
  if stack_pool.emptyH x then none
  else do
    let nd ← p.nodeOf x
    let p1 ← p.setNode x { nd with next := p.free_nodes }
    some (nd.next, { p1 with free_nodes := x })

/-- Source `get_last(x)`: `while (next(current) != end()) ++current`.
Fuel bounds the walk; a well-formed chain of a pool with `n` nodes has at
most `n` nodes, so callers pass fuel `n + 1`.  A cyclic chain (C++ would
loop forever) or an out-of-bounds read yields `none`. -/
def stack_pool.get_lastF (p : stack_pool T) : Nat → Nat → Option Nat
  | 0, _ => none
  | fuel + 1, h =>
    match p.nextOf h with
    | none => none
    | some nx => if nx = 0 then some h else p.get_lastF fuel nx

/-- Source `free_stack(x)`: if empty return `x`; else find the last node,
set its `next` to `free_nodes`, set `free_nodes := x`, return `end()`. -/
def stack_pool.free_stack (p : stack_pool T) (x : Nat) :
    Option (Nat × stack_pool T) :=
  if stack_pool.emptyH x then some (x, p)
  else do
    let t ← p.get_lastF (p.pool.length + 1) x
    let nd ← p.nodeOf t
    let p1 ← p.setNode t { nd with next := p.free_nodes }
    some (stack_pool.endH, { p1 with free_nodes := x })

/-- Source constructor `stack_pool(n)`: empty vector, `free_nodes` set to
`new_stack()` (the sentinel), then `reserve(n)`. -/
def stack_pool.mkPool (n : Nat) : stack_pool T :=
  { pool := [], free_nodes := stack_pool.new_stack, cap := n }

/-- Source `capacity()`: the vector's allocated capacity. -/
def stack_pool.capacity (p : stack_pool T) : Nat := p.cap

/-- Iterating a stack as the C++ range loop does: dereference
(`pool->value(current)`) then advance (`current = pool->next(current)`)
until `current == end()`.  Succeeds with fuel exactly `n` iff the walk
reaches the sentinel after exactly `n` nodes. -/
def stack_pool.iterListF (p : stack_pool T) : Nat → Nat → Option (List T)
  | 0, h => if h = 0 then some [] else none
  | fuel + 1, h =>
    if h = 0 then some []
    else do
      let nd ← p.nodeOf h
      let rest ← p.iterListF fuel nd.next
      some (nd.value :: rest)

/-- Repeated `operator++`: advance the current handle `k` times. -/
def stack_pool.advanceF (p : stack_pool T) : Nat → Nat → Option Nat
  | 0, h => some h
  | k + 1, h => do p.advanceF k (← p.nextOf h)

/-- A sequence of pushes onto one logical stack: each push feeds its
returned handle to the next as the head. -/
def stack_pool.pushMany (p : stack_pool T) (head : Nat) :
    List T → Option (Nat × stack_pool T)
  | [] => some (head, p)
  | v :: vs => do
    let hp ← p._push v head
    hp.2.pushMany hp.1 vs

/-- `isChainB p h st` holds when `st` is exactly the list of handles
visited walking from `h` through `next` links down to the sentinel:
`h` heads `st`, every listed node is a real node, and the last node's
`next` is the sentinel. -/
def stack_pool.isChainB (p : stack_pool T) : Nat → List Nat → Bool
  | h, [] => h == 0
  | h, a :: rest =>
    h == a &&
      (match p.nodeOf a with
       | none => false
       | some nd => p.isChainB nd.next rest)

/-- Values stored at the listed handles. -/
def stack_pool.chainVals (p : stack_pool T) (st : List Nat) : List T :=
  st.filterMap (fun a => (p.nodeOf a).map node_t.value)

/-- Source `class _iterator`: a current handle plus a pointer to the pool
(`stack_pool* const pool`), here carried by value. -/
structure _iterator (T : Type) where
  current : Nat
  pool : stack_pool T

/-- Source `operator=`: copies only `current`; the pool pointer is `const`
and is left as it was at construction. -/
def _iterator.assign (a b : _iterator T) : _iterator T :=
  { a with current := b.current }

/-- Source `operator==`: compares the current handles only. -/
def _iterator.iterEq (a b : _iterator T) : Bool := a.current == b.current

/-- Source `operator!=`: negation of `operator==`. -/
def _iterator.iterNe (a b : _iterator T) : Bool := !(_iterator.iterEq a b)

/-- Source `operator*`: `pool->value(current)`. -/
def _iterator.deref (a : _iterator T) : Option T := a.pool.value a.current

/-- Source `operator++`: `current = pool->next(current)`. -/
def _iterator.inc (a : _iterator T) : Option (_iterator T) :=
  (a.pool.nextOf a.current).map (fun n => { a with current := n })

/-! Helper lemmas about node access and chains. -/

lemma nodeOf_some_bounds {p : stack_pool T} {x : Nat} {nd : node_t T}
    (h : p.nodeOf x = some nd) : x ≠ 0 ∧ x ≤ p.pool.length := by
  unfold stack_pool.nodeOf at h
  by_cases hx : x = 0
  · simp [hx] at h
  · obtain ⟨hlt, -⟩ := List.getElem?_eq_some_iff.mp (by simpa [hx] using h)
    exact ⟨hx, by omega⟩

lemma nodeOf_isSome_of_le {p : stack_pool T} {x : Nat}
    (hx : x ≠ 0) (hle : x ≤ p.pool.length) : (p.nodeOf x).isSome = true := by
  unfold stack_pool.nodeOf
  have hlt : x - 1 < p.pool.length := by omega
  simp [hx, List.getElem?_eq_getElem hlt]

lemma chain_cons_iff {p : stack_pool T} {h a : Nat} {rest : List Nat} :
    p.isChainB h (a :: rest) = true ↔
      h = a ∧ ∃ nd, p.nodeOf a = some nd ∧ p.isChainB nd.next rest = true := by
  simp only [stack_pool.isChainB, Bool.and_eq_true, beq_iff_eq]
  constructor
  · rintro ⟨rfl, hm⟩
    cases hnd : p.nodeOf h with
    | none => rw [hnd] at hm; cases hm
    | some nd => exact ⟨rfl, nd, rfl, by rw [hnd] at hm; exact hm⟩
  · rintro ⟨rfl, nd, hnd, hc⟩
    exact ⟨rfl, by rw [hnd]; exact hc⟩

lemma chain_nil_iff {p : stack_pool T} {h : Nat} :
    p.isChainB h [] = true ↔ h = 0 := by
  simp [stack_pool.isChainB]

lemma chain_zero {p : stack_pool T} {st : List Nat}
    (hc : p.isChainB 0 st = true) : st = [] := by
  cases st with
  | nil => rfl
  | cons a rest =>
    obtain ⟨ha, nd, hnd, -⟩ := chain_cons_iff.mp hc
    exact absurd hnd (by simp [← ha, stack_pool.nodeOf])

lemma chain_head {p : stack_pool T} {h : Nat} {st : List Nat}
    (hc : p.isChainB h st = true) (hh : h ≠ 0) :
    ∃ rest, st = h :: rest := by
  cases st with
  | nil => exact absurd (chain_nil_iff.mp hc) hh
  | cons a rest =>
    obtain ⟨ha, -⟩ := chain_cons_iff.mp hc
    exact ⟨rest, by rw [ha]⟩

lemma chain_mem_bounds {p : stack_pool T} {h : Nat} {st : List Nat}
    (hc : p.isChainB h st = true) :
    ∀ a ∈ st, a ≠ 0 ∧ a ≤ p.pool.length := by
  induction st generalizing h with
  | nil => intro a ha; cases ha
  | cons b rest ih =>
    obtain ⟨-, nd, hnd, hrest⟩ := chain_cons_iff.mp hc
    intro a ha
    rcases List.mem_cons.mp ha with rfl | ha2
    · exact nodeOf_some_bounds hnd
    · exact ih hrest a ha2

lemma chain_frame {p q : stack_pool T} {h : Nat} {st : List Nat}
    (hfr : ∀ a ∈ st, q.nodeOf a = p.nodeOf a) :
    q.isChainB h st = p.isChainB h st := by
  induction st generalizing h with
  | nil => rfl
  | cons a rest ih =>
    simp only [stack_pool.isChainB]
    rw [hfr a (List.mem_cons_self a rest)]
    cases hnd : p.nodeOf a with
    | none => rfl
    | some nd =>
      exact congrArg (fun b => h == a && b)
        (ih (fun b hb => hfr b (List.mem_cons_of_mem _ hb)))

lemma chainVals_frame {p q : stack_pool T} {st : List Nat}
    (hfr : ∀ a ∈ st, q.nodeOf a = p.nodeOf a) :
    q.chainVals st = p.chainVals st := by
  unfold stack_pool.chainVals
  induction st with
  | nil => rfl
  | cons a rest ih =>
    simp only [List.filterMap_cons]
    rw [hfr a (List.mem_cons_self a rest),
      ih (fun b hb => hfr b (List.mem_cons_of_mem _ hb))]

lemma chainVals_cons_some {p : stack_pool T} {a : Nat} {st : List Nat} {nd : node_t T}
    (hnd : p.nodeOf a = some nd) :
    p.chainVals (a :: st) = nd.value :: p.chainVals st := by
  unfold stack_pool.chainVals
  simp [List.filterMap_cons, hnd]

lemma setNode_some {p : stack_pool T} {x : Nat} (nd : node_t T)
    (hx : x ≠ 0) (hle : x ≤ p.pool.length) :
    p.setNode x nd = some { p with pool := p.pool.set (x - 1) nd } := by
  unfold stack_pool.setNode
  simp [hx, hle]

lemma nodeOf_set_self {p q : stack_pool T} {x : Nat} {nd : node_t T}
    (hq : q.pool = p.pool.set (x - 1) nd)
    (hx : x ≠ 0) (hle : x ≤ p.pool.length) :
    q.nodeOf x = some nd := by
  unfold stack_pool.nodeOf
  have hlt : x - 1 < p.pool.length := by omega
  simp [hq, hx, List.getElem?_set_self hlt]

lemma nodeOf_set_ne {p q : stack_pool T} {x a : Nat} {nd : node_t T}
    (hq : q.pool = p.pool.set (x - 1) nd)
    (hx : x ≠ 0) (hne : a ≠ x) :
    q.nodeOf a = p.nodeOf a := by
  unfold stack_pool.nodeOf
  by_cases ha : a = 0
  · simp [ha]
  · simp only [ha, if_neg, ite_false, hq]
    exact List.getElem?_set_ne (by omega)

lemma nodeOf_pool_congr {p q : stack_pool T} (hq : q.pool = p.pool) (a : Nat) :
    q.nodeOf a = p.nodeOf a := by
  unfold stack_pool.nodeOf
  rw [hq]

lemma nodeOf_concat_frame {p q : stack_pool T} {nd0 : node_t T}
    (hq : q.pool = p.pool ++ [nd0]) {a : Nat} (hne : a ≠ p.pool.length + 1) :
    q.nodeOf a = p.nodeOf a := by
  unfold stack_pool.nodeOf
  by_cases ha : a = 0
  · simp [ha]
  · simp only [ha, if_neg, ite_false, hq]
    by_cases hle : a ≤ p.pool.length
    · exact List.getElem?_append_left (by omega)
    · have h1 : p.pool.length ≤ a - 1 := by omega
      have h2 : (p.pool ++ [nd0]).length ≤ a - 1 := by simp; omega
      rw [List.getElem?_eq_none h1, List.getElem?_eq_none h2]

lemma nodeOf_concat_self {p q : stack_pool T} {nd0 : node_t T}
    (hq : q.pool = p.pool ++ [nd0]) :
    q.nodeOf (p.pool.length + 1) = some nd0 := by
  unfold stack_pool.nodeOf
  simp only [Nat.add_sub_cancel, hq]
  simp [List.getElem?_concat_length]

/-- One push step, tracked at the level of chains: from a stack chain `st`
headed by `h` and a free chain `fl`, with all listed nodes distinct,
`_push` succeeds, returns a fresh non-sentinel handle holding `{v, h}`,
leaves every other node alone, prepends the handle to the stack chain,
drops the first free node, and appends to storage only when `fl` is empty. -/
lemma push_step (p : stack_pool T) (v : T) (h : Nat) (st fl : List Nat)
    (hst : p.isChainB h st = true)
    (hfl : p.isChainB p.free_nodes fl = true)
    (hnd : (st ++ fl).Nodup) :
    ∃ h2 p2, p._push v h = some (h2, p2) ∧
      h2 ≠ 0 ∧
      p2.nodeOf h2 = some ⟨v, h⟩ ∧
      (∀ a, a ≠ h2 → p2.nodeOf a = p.nodeOf a) ∧
      h2 ∉ st ∧
      p2.isChainB h2 (h2 :: st) = true ∧
      p2.isChainB p2.free_nodes (fl.drop 1) = true ∧
      ((h2 :: st) ++ fl.drop 1).Nodup ∧
      (fl ≠ [] → p2.cap = p.cap ∧ p2.pool.length = p.pool.length) ∧
      (fl = [] → p2.pool.length = p.pool.length + 1 ∧ h2 = p.pool.length + 1) := by
  by_cases hf : p.free_nodes = 0
  · -- growth branch: the free list is empty
    have hfl0 : fl = [] := chain_zero (by rw [← hf]; exact hfl)
    subst hfl0
    have hemp : stack_pool.emptyH p.free_nodes = true := by
      simp [stack_pool.emptyH, stack_pool.endH, hf]
    have hpush : p._push v h = some (p.pool.length + 1,
        { pool := p.pool ++ [⟨v, h⟩], free_nodes := p.free_nodes,
          cap := vecGrow p.cap p.pool.length }) := by
      unfold stack_pool._push
      rw [if_pos hemp]
    refine ⟨p.pool.length + 1,
      { pool := p.pool ++ [⟨v, h⟩], free_nodes := p.free_nodes,
        cap := vecGrow p.cap p.pool.length }, hpush, by omega, ?_, ?_, ?_, ?_, ?_, ?_, ?_, ?_⟩
    · exact nodeOf_concat_self rfl
    · intro a ha
      exact nodeOf_concat_frame rfl ha
    · intro hmem
      have := (chain_mem_bounds hst _ hmem).2
      omega
    · refine chain_cons_iff.mpr ⟨rfl, ⟨v, h⟩, nodeOf_concat_self rfl, ?_⟩
      have hfr : ∀ a ∈ st,
          ({ pool := p.pool ++ [⟨v, h⟩], free_nodes := p.free_nodes,
             cap := vecGrow p.cap p.pool.length } : stack_pool T).nodeOf a = p.nodeOf a := by
        intro a ha
        have := (chain_mem_bounds hst _ ha).2
        exact nodeOf_concat_frame rfl (by omega)
      exact (chain_frame hfr).trans hst
    · simpa [stack_pool.isChainB] using hf
    · simp only [List.drop_nil, List.append_nil]
      refine List.nodup_cons.mpr ⟨?_, by simpa using hnd⟩
      intro hmem
      have := (chain_mem_bounds hst _ hmem).2
      omega
    · intro hcon; exact absurd rfl hcon
    · intro hcon
      constructor
      · simp
      · rfl
  · -- reuse branch: splice the first free node onto the stack
    obtain ⟨fr, rfl⟩ := chain_head hfl hf
    obtain ⟨-, nd, hnd_f, hfr_chain⟩ := chain_cons_iff.mp hfl
    obtain ⟨hf0, hfle⟩ := nodeOf_some_bounds hnd_f
    have hemp : stack_pool.emptyH p.free_nodes = false := by
      simp [stack_pool.emptyH, stack_pool.endH, hf]
    have hdisj := List.disjoint_of_nodup_append hnd
    have hfst : p.free_nodes ∉ st := fun hmem =>
      hdisj hmem (List.mem_cons_self _ _)
    have hnodup2 : (p.free_nodes :: (st ++ fr)).Nodup := List.perm_middle.nodup hnd
    have hfnotin : p.free_nodes ∉ st ++ fr := (List.nodup_cons.mp hnodup2).1
    have hpush : p._push v h = some (p.free_nodes,
        { pool := p.pool.set (p.free_nodes - 1) ⟨v, h⟩,
          free_nodes := nd.next, cap := p.cap }) := by
      unfold stack_pool._push
      rw [if_neg (by simp [hemp]), hnd_f, setNode_some ⟨v, h⟩ hf0 hfle]
      rfl
    refine ⟨p.free_nodes,
      { pool := p.pool.set (p.free_nodes - 1) ⟨v, h⟩,
        free_nodes := nd.next, cap := p.cap },
      hpush, hf0, ?_, ?_, hfst, ?_, ?_, ?_, ?_, ?_⟩
    · exact nodeOf_set_self rfl hf0 hfle
    · intro a ha
      exact nodeOf_set_ne rfl hf0 ha
    · refine chain_cons_iff.mpr ⟨rfl, ⟨v, h⟩, nodeOf_set_self rfl hf0 hfle, ?_⟩
      have hfr2 : ∀ a ∈ st,
          ({ pool := p.pool.set (p.free_nodes - 1) ⟨v, h⟩,
             free_nodes := nd.next, cap := p.cap } : stack_pool T).nodeOf a = p.nodeOf a := by
        intro a ha
        exact nodeOf_set_ne rfl hf0 (fun hc => hfst (hc ▸ ha))
      exact (chain_frame hfr2).trans hst
    · have hfr2 : ∀ a ∈ fr,
          ({ pool := p.pool.set (p.free_nodes - 1) ⟨v, h⟩,
             free_nodes := nd.next, cap := p.cap } : stack_pool T).nodeOf a = p.nodeOf a := by
        intro a ha
        refine nodeOf_set_ne rfl hf0 (fun hc => hfnotin ?_)
        rw [← hc]
        exact List.mem_append.mpr (Or.inr ha)
      exact (chain_frame hfr2).trans hfr_chain
    · simpa using hnodup2
    · intro hcon
      exact ⟨rfl, by simp⟩
    · intro hcon; cases hcon

/-- Iterating with fuel equal to the chain length yields exactly the
chain's values and stops at the sentinel. -/
lemma chain_iterList {p : stack_pool T} {h : Nat} {st : List Nat}
    (hc : p.isChainB h st = true) {fuel : Nat} (hfuel : st.length ≤ fuel) :
    p.iterListF fuel h = some (p.chainVals st) := by
  induction st generalizing h fuel with
  | nil =>
    have h0 : h = 0 := chain_nil_iff.mp hc
    cases fuel with
    | zero => simp [stack_pool.iterListF, h0, stack_pool.chainVals]
    | succ f => simp [stack_pool.iterListF, h0, stack_pool.chainVals]
  | cons a rest ih =>
    obtain ⟨rfl, nd, hnd, hrest⟩ := chain_cons_iff.mp hc
    have ha0 := (nodeOf_some_bounds hnd).1
    cases fuel with
    | zero => simp at hfuel
    | succ f =>
      have hlen : rest.length ≤ f := by simpa using hfuel
      simp [stack_pool.iterListF, ha0, hnd, ih hrest hlen, chainVals_cons_some hnd]

/-- Advancing the iterator through a whole chain lands on the sentinel. -/
lemma chain_advance {p : stack_pool T} {h : Nat} {st : List Nat}
    (hc : p.isChainB h st = true) :
    p.advanceF st.length h = some 0 := by
  induction st generalizing h with
  | nil => simp [chain_nil_iff.mp hc, stack_pool.advanceF]
  | cons a rest ih =>
    obtain ⟨rfl, nd, hnd, hrest⟩ := chain_cons_iff.mp hc
    simp [stack_pool.advanceF, stack_pool.nextOf, hnd, ih hrest]

/-- The tail-finding walk of `get_last` returns the last handle of the
chain, given enough fuel. -/
lemma chain_get_last {p : stack_pool T} {h a : Nat} {rest : List Nat}
    (hc : p.isChainB h (a :: rest) = true) {fuel : Nat}
    (hfuel : (a :: rest).length ≤ fuel) :
    p.get_lastF fuel h = (a :: rest).getLast? := by
  induction rest generalizing h a fuel with
  | nil =>
    obtain ⟨rfl, nd, hnd, hrest⟩ := chain_cons_iff.mp hc
    have hnx : nd.next = 0 := chain_nil_iff.mp hrest
    cases fuel with
    | zero => simp at hfuel
    | succ f => simp [stack_pool.get_lastF, stack_pool.nextOf, hnd, hnx]
  | cons b rest2 ih =>
    obtain ⟨rfl, nd, hnd, hrest⟩ := chain_cons_iff.mp hc
    obtain ⟨hb, nd2, hnd2, -⟩ := chain_cons_iff.mp hrest
    have hb0 : b ≠ 0 := (nodeOf_some_bounds hnd2).1
    cases fuel with
    | zero => simp at hfuel
    | succ f =>
      have hlen : (b :: rest2).length ≤ f := by simpa using hfuel
      rw [hb] at hrest
      have hih := ih hrest hlen
      simp [stack_pool.get_lastF, stack_pool.nextOf, hnd, hb, hb0, hih]

/-- A duplicate-free chain cannot be longer than the node array: its
handles are distinct values in `[1, length]`. -/
lemma chain_length_le {p : stack_pool T} {h : Nat} {st : List Nat}
    (hc : p.isChainB h st = true) (hnd : st.Nodup) :
    st.length ≤ p.pool.length := by
  classical
  have hsub : st.toFinset ⊆ Finset.Icc 1 p.pool.length := by
    intro a ha
    rw [List.mem_toFinset] at ha
    obtain ⟨h1, h2⟩ := chain_mem_bounds hc a ha
    rw [Finset.mem_Icc]
    omega
  have h1 : st.toFinset.card = st.length := List.toFinset_card_of_nodup hnd
  have h2 := Finset.card_le_card hsub
  rw [h1, Nat.card_Icc] at h2
  omega

/-- Invariant of a whole sequence of pushes onto one stack: the pushes all
succeed, the stack chain gains one handle per pushed value (most recent
first), the free chain loses its first `min n c` nodes, and as long as the
free list lasts, neither the storage size nor the capacity changes. -/
lemma pushMany_inv (vs : List T) (p : stack_pool T) (h : Nat) (st fl : List Nat)
    (hst : p.isChainB h st = true)
    (hfl : p.isChainB p.free_nodes fl = true)
    (hnd : (st ++ fl).Nodup) :
    ∃ h2 p2 st2,
      p.pushMany h vs = some (h2, p2) ∧
      st2.length = vs.length ∧
      p2.isChainB h2 (st2 ++ st) = true ∧
      p2.isChainB p2.free_nodes (fl.drop vs.length) = true ∧
      ((st2 ++ st) ++ fl.drop vs.length).Nodup ∧
      p2.chainVals (st2 ++ st) = vs.reverse ++ p.chainVals st ∧
      (vs.length ≤ fl.length → p2.cap = p.cap ∧ p2.pool.length = p.pool.length) := by
  induction vs generalizing p h st fl with
  | nil =>
    exact ⟨h, p, [], rfl, rfl, by simpa using hst, by simpa using hfl,
      by simpa using hnd, by simp, fun _ => ⟨rfl, rfl⟩⟩
  | cons v vs ih =>
    obtain ⟨h1, p1, hpush, h1ne, hnode, hframe, hnotin, hchain1, hfree1, hnodup1,
      hne_case, hnil_case⟩ := push_step p v h st fl hst hfl hnd
    obtain ⟨h2, p2, st2, hmany, hlen2, hchain2, hfree2, hnodup2, hvals2, hcap2⟩ :=
      ih p1 h1 (h1 :: st) (fl.drop 1) hchain1 hfree1 hnodup1
    have hdrop : (fl.drop 1).drop vs.length = fl.drop (vs.length + 1) := by
      rw [List.drop_drop, Nat.add_comm]
    have hassoc : (st2 ++ [h1]) ++ st = st2 ++ (h1 :: st) := by
      simp
    refine ⟨h2, p2, st2 ++ [h1], ?_, ?_, ?_, ?_, ?_, ?_, ?_⟩
    · simp [stack_pool.pushMany, hpush, hmany]
    · simp [hlen2]
    · rw [hassoc]
      exact hchain2
    · simpa [hdrop] using hfree2
    · rw [hassoc]
      simpa [hdrop] using hnodup2
    · rw [hassoc, hvals2]
      have hst_vals : p1.chainVals st = p.chainVals st := by
        refine chainVals_frame ?_
        intro a ha
        exact hframe a (fun hc2 => hnotin (hc2 ▸ ha))
      rw [chainVals_cons_some hnode, hst_vals]
      simp
    · intro hle
      have hflne : fl ≠ [] := by
        intro hcon
        rw [hcon] at hle
        simp at hle
      obtain ⟨hcap1, hlen1⟩ := hne_case hflne
      have hle2 : vs.length ≤ (fl.drop 1).length := by
        simp only [List.length_drop]
        have : vs.length + 1 ≤ fl.length := by simpa using hle
        omega
      obtain ⟨hcap2a, hlen2a⟩ := hcap2 hle2
      exact ⟨hcap2a.trans hcap1, hlen2a.trans hlen1⟩

/-- Effect of `free_stack` on a non-empty, well-formed stack chain: it
finds the tail, points the tail's `next` at the old free head, makes the
stack head the new free head, touches no other node, and returns the
sentinel. -/
lemma free_stack_step (p : stack_pool T) (h : Nat) (st : List Nat)
    (hst : p.isChainB h st = true) (hnd : st.Nodup) (hne : h ≠ 0) :
    ∃ p2 t nd, st.getLast? = some t ∧ p.nodeOf t = some nd ∧
      p.free_stack h = some (stack_pool.endH, p2) ∧
      p2.free_nodes = h ∧
      p2.nodeOf t = some { nd with next := p.free_nodes } ∧
      (∀ a, a ≠ t → p2.nodeOf a = p.nodeOf a) ∧
      p2.cap = p.cap ∧ p2.pool.length = p.pool.length := by
  obtain ⟨rest, rfl⟩ := chain_head hst hne
  obtain ⟨t, ht⟩ : ∃ t, (h :: rest).getLast? = some t := by
    cases hgl : (h :: rest).getLast? with
    | none => exact absurd (List.getLast?_eq_none_iff.mp hgl) (List.cons_ne_nil _ _)
    | some t => exact ⟨t, rfl⟩
  have htmem : t ∈ h :: rest := List.mem_of_getLast?_eq_some ht
  obtain ⟨ht0, htle⟩ := chain_mem_bounds hst t htmem
  obtain ⟨nd, hnode⟩ : ∃ nd, p.nodeOf t = some nd := by
    have := nodeOf_isSome_of_le ht0 htle
    cases hx : p.nodeOf t with
    | none => rw [hx] at this; cases this
    | some nd => exact ⟨nd, rfl⟩
  have hfuel : (h :: rest).length ≤ p.pool.length + 1 := by
    have := chain_length_le hst hnd
    omega
  have hlast := chain_get_last hst hfuel
  have hemp : stack_pool.emptyH h = false := by
    simp [stack_pool.emptyH, stack_pool.endH, hne]
  have hfree : p.free_stack h = some (stack_pool.endH,
      { pool := p.pool.set (t - 1) { nd with next := p.free_nodes },
        free_nodes := h, cap := p.cap }) := by
    unfold stack_pool.free_stack
    rw [if_neg (by simp [hemp])]
    simp only [hlast, ht, Option.bind_eq_bind, Option.some_bind, hnode, setNode_some _ ht0 htle]
  refine ⟨_, t, nd, ht, hnode, hfree, rfl, ?_, ?_, rfl, by simp⟩
  · exact nodeOf_set_self rfl ht0 htle
  · intro a ha
    exact nodeOf_set_ne rfl ht0 ha

/-- C1: for every pool state whose free list is a well-formed chain and
every valid stack head `h` (the sentinel included, with `st` the stack's
chain, disjoint from the free chain), pushing `v` and popping undoes the
push: `pop` succeeds and returns `h`, the pushed node's handle becomes the
new free-list head (the node is recyclable), and the node at `h` — the old
top of the stack — is unchanged. -/
theorem c1_pop_push_roundtrip (p : stack_pool T) (v : T) (h : Nat)
    (st fl : List Nat)
    (hst : p.isChainB h st = true)
    (hfl : p.isChainB p.free_nodes fl = true)
    (hnd : (st ++ fl).Nodup) :
    ∃ h1 p1 p2, p.push v h = some (h1, p1) ∧
      p1.pop h1 = some (h, p2) ∧
      p2.free_nodes = h1 ∧
      (h ≠ 0 → p2.nodeOf h = p.nodeOf h) := by
  obtain ⟨h1, p1, hpush, h1ne, hnode, hframe, hnotin, hchain1, hfree1, hnodup1, -, -⟩ :=
    push_step p v h st fl hst hfl hnd
  obtain ⟨-, h1le⟩ := nodeOf_some_bounds hnode
  have hemp : stack_pool.emptyH h1 = false := by
    simp [stack_pool.emptyH, stack_pool.endH, h1ne]
  have hpop : p1.pop h1 = some (h,
      { pool := p1.pool.set (h1 - 1) ⟨v, p1.free_nodes⟩,
        free_nodes := h1, cap := p1.cap }) := by
    unfold stack_pool.pop
    rw [if_neg (by simp [hemp])]
    simp only [hnode, Option.bind_eq_bind, Option.some_bind, setNode_some _ h1ne h1le]
  refine ⟨h1, p1, _, hpush, hpop, rfl, ?_⟩
  intro hne
  obtain ⟨rest, rfl⟩ := chain_head hst hne
  have hne1 : h ≠ h1 := fun hc => hnotin (hc ▸ List.mem_cons_self h rest)
  have e1 := nodeOf_set_ne (p := p1)
    (q := { pool := p1.pool.set (h1 - 1) ⟨v, p1.free_nodes⟩,
            free_nodes := h1, cap := p1.cap }) rfl h1ne hne1
  rw [e1]
  exact hframe h hne1

/-- C2: pushing the values `vs` one by one onto a stack that starts at the
sentinel (in any pool whose free list is a well-formed chain), then
iterating from the last returned handle, visits the values in reverse push
order and reaches the sentinel after exactly `vs.length` elements. -/
theorem c2_reverse_iteration (p : stack_pool T) (fl : List Nat) (vs : List T)
    (hfl : p.isChainB p.free_nodes fl = true) (hnd : fl.Nodup) :
    ∃ hn p2, p.pushMany stack_pool.new_stack vs = some (hn, p2) ∧
      p2.iterListF vs.length hn = some vs.reverse ∧
      p2.advanceF vs.length hn = some 0 := by
  obtain ⟨hn, p2, st2, hmany, hlen, hchain, -, -, hvals, -⟩ :=
    pushMany_inv vs p 0 [] fl (chain_nil_iff.mpr rfl) hfl (by simpa using hnd)
  rw [List.append_nil] at hchain hvals
  refine ⟨hn, p2, hmany, ?_, ?_⟩
  · rw [chain_iterList hchain (le_of_eq hlen), hvals]
    simp [stack_pool.chainVals]
  · rw [← hlen]
    exact chain_advance hchain

/-- C3: if the pool's `c` nodes have all been returned to the free list
(a duplicate-free free chain covering the whole storage), the next
`vs.length ≤ c` pushes succeed without changing either the storage size or
the capacity; moreover `_push` appends to storage exactly when the free
list is empty: with `free_nodes = 0` a push grows the vector by one node,
with `free_nodes ≠ 0` a successful push leaves the vector size unchanged. -/
theorem c3_reuse_before_growth (p : stack_pool T) (fl : List Nat) (vs : List T)
    (hfl : p.isChainB p.free_nodes fl = true) (hnd : fl.Nodup)
    (hall : fl.length = p.pool.length) (hle : vs.length ≤ p.pool.length) :
    (∃ h2 p2, p.pushMany stack_pool.new_stack vs = some (h2, p2) ∧
      p2.capacity = p.capacity ∧ p2.pool.length = p.pool.length) ∧
    (∀ (q : stack_pool T) (w : T) (hh : Nat), q.free_nodes = 0 →
      ∃ r, q._push w hh = some r ∧ r.2.pool.length = q.pool.length + 1) ∧
    (∀ (q : stack_pool T) (w : T) (hh : Nat) (r : Nat × stack_pool T),
      q.free_nodes ≠ 0 → q._push w hh = some r →
        r.2.pool.length = q.pool.length) := by
  refine ⟨?_, ?_, ?_⟩
  · obtain ⟨h2, p2, st2, hmany, -, -, -, -, -, hcap⟩ :=
      pushMany_inv vs p 0 [] fl (chain_nil_iff.mpr rfl) hfl (by simpa using hnd)
    obtain ⟨hc, hl⟩ := hcap (by omega)
    exact ⟨h2, p2, hmany, hc, hl⟩
  · intro q w hh hq0
    have hemp : stack_pool.emptyH q.free_nodes = true := by
      simp [stack_pool.emptyH, stack_pool.endH, hq0]
    refine ⟨(q.pool.length + 1,
      { pool := q.pool ++ [⟨w, hh⟩], free_nodes := q.free_nodes,
        cap := vecGrow q.cap q.pool.length }), ?_, by simp⟩
    unfold stack_pool._push
    rw [if_pos hemp]
  · intro q w hh r hq hpr
    have hemp : stack_pool.emptyH q.free_nodes = false := by
      simp [stack_pool.emptyH, stack_pool.endH, hq]
    unfold stack_pool._push at hpr
    rw [if_neg (by simp [hemp])] at hpr
    cases hqnd : q.nodeOf q.free_nodes with
    | none => rw [hqnd] at hpr; simp at hpr
    | some nd =>
      rw [hqnd] at hpr
      simp only [Option.bind_eq_bind, Option.some_bind] at hpr
      unfold stack_pool.setNode at hpr
      by_cases hcond : q.free_nodes ≠ 0 ∧ q.free_nodes ≤ q.pool.length
      · rw [if_pos hcond] at hpr
        simp only [Option.some_bind] at hpr
        obtain rfl := Option.some.inj hpr
        simp
      · rw [if_neg hcond] at hpr
        simp at hpr

/-- C4: `free_stack` on the sentinel returns the sentinel and leaves the
pool untouched; on a non-empty stack with chain `st` it walks to the tail,
points the tail's `next` at the old free-list head, makes the stack head
the new free-list head, touches no other node, and returns the sentinel —
on which `empty` reports true. -/
theorem c4_free_stack_spec (p : stack_pool T) (h : Nat) (st : List Nat)
    (hst : p.isChainB h st = true) (hnd : st.Nodup) :
    (h = 0 → p.free_stack h = some (h, p)) ∧
    (h ≠ 0 → ∃ p2 t nd, st.getLast? = some t ∧ p.nodeOf t = some nd ∧
      p.free_stack h = some (stack_pool.endH, p2) ∧
      stack_pool.emptyH stack_pool.endH = true ∧
      p2.free_nodes = h ∧
      p2.nodeOf t = some { nd with next := p.free_nodes } ∧
      (∀ a, a ≠ t → p2.nodeOf a = p.nodeOf a)) := by
  constructor
  · intro h0
    subst h0
    rfl
  · intro hne
    obtain ⟨p2, t, nd, ht, hnode, hfree, hfn, hset, hframe, -, -⟩ :=
      free_stack_step p h st hst hnd hne
    exact ⟨p2, t, nd, ht, hnode, hfree, rfl, hfn, hset, hframe⟩

/-- C5: reading `value` at the sentinel and `pop` at the sentinel each hit
their one diagnostic check (`empty` holds at the sentinel) and produce no
result and no successor pool state: the failure path is taken before any
mutation, as in the source, where `AP_ERROR` precedes every access. -/
theorem c5_sentinel_diag (p : stack_pool T) :
    stack_pool.emptyH stack_pool.endH = true ∧
    p.value stack_pool.endH = none ∧
    p.pop stack_pool.endH = none :=
  ⟨rfl, rfl, rfl⟩

/-- C6 as stated is false: `new_stack` produces the sentinel handle, and
`next` at the sentinel reads `pool[SIZE_MAX]`, which is out of bounds
(undefined behaviour), even in a pool that holds a pushed node. -/
theorem c6_next_on_sentinel_cex :
    ((stack_pool.mkPool 1 : stack_pool Int)._push 10 stack_pool.new_stack).isSome = true ∧
    (((stack_pool.mkPool 1 : stack_pool Int)._push 10 stack_pool.new_stack).bind
      (fun r => r.2.nextOf stack_pool.new_stack)) = none :=
  ⟨rfl, rfl⟩

/-- C6 amended: on well-formed chains, `push`, `free_stack` (empty stack
included) and iterator construction are total, and `next(h)` is
well-defined for every non-sentinel handle heading a chain; `next` at the
sentinel is undefined (out-of-bounds read). -/
theorem c6_totality_amended (p : stack_pool T) (v : T) (h : Nat)
    (st fl : List Nat)
    (hst : p.isChainB h st = true)
    (hfl : p.isChainB p.free_nodes fl = true)
    (hnd : (st ++ fl).Nodup) :
    (p._push v h).isSome = true ∧
    (p.free_stack h).isSome = true ∧
    (_iterator.mk h p).current = h ∧
    (h ≠ 0 → (p.nextOf h).isSome = true) ∧
    p.nextOf 0 = none := by
  obtain ⟨h1, p1, hpush, -, -, -, -, -, -, -, -, -⟩ :=
    push_step p v h st fl hst hfl hnd
  refine ⟨by rw [hpush]; rfl, ?_, rfl, ?_, rfl⟩
  · by_cases hne : h = 0
    · subst hne
      rfl
    · obtain ⟨p2, t, nd, -, -, hfree, -⟩ :=
        free_stack_step p h st hst hnd.of_append_left hne
      rw [hfree]
      rfl
  · intro hne
    obtain ⟨rest, rfl⟩ := chain_head hst hne
    obtain ⟨-, nd, hnode, -⟩ := chain_cons_iff.mp hst
    simp [stack_pool.nextOf, hnode]

/-- C7: freeing one stack leaves a disjoint stack intact: after
`free_stack` on `a` (chain `sa`), the chain of `b` (`sb`, disjoint from
`sa`) is unchanged and iterating `b` yields the same values as before. -/
theorem c7_free_frame (p : stack_pool T) (a b : Nat) (sa sb : List Nat)
    (hsa : p.isChainB a sa = true) (hsb : p.isChainB b sb = true)
    (hnd : (sa ++ sb).Nodup) :
    ∃ p2, p.free_stack a = some (stack_pool.endH, p2) ∧
      p2.isChainB b sb = true ∧
      p2.chainVals sb = p.chainVals sb ∧
      p2.iterListF sb.length b = some (p.chainVals sb) ∧
      p.iterListF sb.length b = some (p.chainVals sb) := by
  by_cases ha : a = 0
  · subst ha
    exact ⟨p, rfl, hsb, rfl, chain_iterList hsb le_rfl, chain_iterList hsb le_rfl⟩
  · obtain ⟨p2, t, nd, ht, -, hfree, -, -, hframe, -, -⟩ :=
      free_stack_step p a sa hsa hnd.of_append_left ha
    have htmem : t ∈ sa := List.mem_of_getLast?_eq_some ht
    have hdisj := List.disjoint_of_nodup_append hnd
    have hfr : ∀ x ∈ sb, p2.nodeOf x = p.nodeOf x := by
      intro x hx
      refine hframe x (fun hc => ?_)
      have hxa : x ∈ sa := by rw [hc]; exact htmem
      exact hdisj hxa hx
    have hchain2 : p2.isChainB b sb = true := (chain_frame hfr).trans hsb
    have hvals : p2.chainVals sb = p.chainVals sb := chainVals_frame hfr
    refine ⟨p2, hfree, hchain2, hvals, ?_, chain_iterList hsb le_rfl⟩
    rw [chain_iterList hchain2 le_rfl, hvals]

/-- C8: iterator equality compares only the current handles and ignores
which pools the iterators point into; `!=` is its negation. -/
theorem c8_iterator_eq_ignores_pool (c1 c2 : Nat) (q1 q2 : stack_pool T) :
    (_iterator.iterEq ⟨c1, q1⟩ ⟨c2, q2⟩ = true ↔ c1 = c2) ∧
    _iterator.iterNe ⟨c1, q1⟩ ⟨c2, q2⟩ = !(_iterator.iterEq ⟨c1, q1⟩ ⟨c2, q2⟩) :=
  ⟨by simp [_iterator.iterEq], rfl⟩

/-- C9: iterator copy-assignment copies only the current handle; the
target keeps its own pool pointer, and dereference and advance after the
assignment resolve against the target's original pool. -/
theorem c9_assign_keeps_pool (a b : _iterator T) :
    (a.assign b).current = b.current ∧
    (a.assign b).pool = a.pool ∧
    (a.assign b).deref = a.pool.value b.current ∧
    (a.assign b).inc = (a.pool.nextOf b.current).map (fun n => ⟨n, a.pool⟩) :=
  ⟨rfl, rfl, rfl, rfl⟩

/-- C10: `push` never returns the sentinel: the growth branch returns the
new vector length (at least 1) and the reuse branch returns the old
free-list head, which the branch condition guarantees non-empty. -/
theorem c10_push_not_sentinel (p : stack_pool T) (v : T) (h : Nat) (fl : List Nat)
    (hfl : p.isChainB p.free_nodes fl = true) :
    ∃ r, p.push v h = some r ∧ r.1 ≠ 0 ∧ stack_pool.emptyH r.1 = false := by
  by_cases hf : p.free_nodes = 0
  · have hemp : stack_pool.emptyH p.free_nodes = true := by
      simp [stack_pool.emptyH, stack_pool.endH, hf]
    refine ⟨(p.pool.length + 1,
      { pool := p.pool ++ [⟨v, h⟩], free_nodes := p.free_nodes,
        cap := vecGrow p.cap p.pool.length }), ?_, by omega, ?_⟩
    · unfold stack_pool.push stack_pool._push
      rw [if_pos hemp]
    · simp [stack_pool.emptyH, stack_pool.endH]
  · obtain ⟨fr, rfl⟩ := chain_head hfl hf
    obtain ⟨-, nd, hnode, -⟩ := chain_cons_iff.mp hfl
    obtain ⟨h0, hle⟩ := nodeOf_some_bounds hnode
    have hemp : stack_pool.emptyH p.free_nodes = false := by
      simp [stack_pool.emptyH, stack_pool.endH, hf]
    refine ⟨(p.free_nodes,
      { pool := p.pool.set (p.free_nodes - 1) ⟨v, h⟩,
        free_nodes := nd.next, cap := p.cap }), ?_, hf, hemp⟩
    unfold stack_pool.push stack_pool._push
    rw [if_neg (by simp [hemp])]
    simp only [hnode, Option.bind_eq_bind, Option.some_bind, setNode_some _ h0 hle]

/-- Concrete pool for witnesses: three nodes, stack chain `2 → 1`
(values 20, 10), free chain `[3]`. -/
def pW : stack_pool Int :=
  { pool := [⟨10, 0⟩, ⟨20, 1⟩, ⟨30, 0⟩], free_nodes := 3, cap := 3 }

/-- Concrete pool for witnesses: both nodes are on the free chain `2 → 1`
(storage fully freed). -/
def pF : stack_pool Int :=
  { pool := [⟨1, 0⟩, ⟨2, 1⟩], free_nodes := 2, cap := 2 }

/-- Concrete pool for witnesses: two disjoint stacks `3 → 2 → 1` and `5 → 4`. -/
def pAB : stack_pool Int :=
  { pool := [⟨10, 0⟩, ⟨20, 1⟩, ⟨30, 2⟩, ⟨40, 0⟩, ⟨50, 4⟩], free_nodes := 0, cap := 5 }

/-- Witness for C1 at the concrete pool `pW`, value 99, head 2. -/
theorem c1_w : ∃ h1 p1 p2, pW.push (99 : Int) 2 = some (h1, p1) ∧
    p1.pop h1 = some (2, p2) ∧ p2.free_nodes = h1 ∧
    ((2 : Nat) ≠ 0 → p2.nodeOf 2 = pW.nodeOf 2) :=
  c1_pop_push_roundtrip pW 99 2 [2, 1] [3] (by decide) (by decide) (by decide)

/-- Witness for C2: pushing `[7, 8]` from the sentinel in `pW`. -/
theorem c2_w : ∃ hn p2, pW.pushMany stack_pool.new_stack [(7 : Int), 8] = some (hn, p2) ∧
    p2.iterListF 2 hn = some [8, 7] ∧ p2.advanceF 2 hn = some 0 :=
  c2_reverse_iteration pW [3] [7, 8] (by decide) (by decide)

/-- Witness for C3: `pF` has both nodes freed; two pushes reuse them. -/
theorem c3_w :
    (∃ h2 p2, pF.pushMany stack_pool.new_stack [(5 : Int), 6] = some (h2, p2) ∧
      p2.capacity = pF.capacity ∧ p2.pool.length = pF.pool.length) ∧
    (∀ (q : stack_pool Int) (w : Int) (hh : Nat), q.free_nodes = 0 →
      ∃ r, q._push w hh = some r ∧ r.2.pool.length = q.pool.length + 1) ∧
    (∀ (q : stack_pool Int) (w : Int) (hh : Nat) (r : Nat × stack_pool Int),
      q.free_nodes ≠ 0 → q._push w hh = some r →
        r.2.pool.length = q.pool.length) :=
  c3_reuse_before_growth pF [2, 1] [5, 6] (by decide) (by decide) (by decide) (by decide)

/-- Witness for C4 at `pW`, stack `2 → 1`. -/
theorem c4_w :
    ((2 : Nat) = 0 → pW.free_stack 2 = some (2, pW)) ∧
    ((2 : Nat) ≠ 0 → ∃ p2 t nd, ([2, 1] : List Nat).getLast? = some t ∧
      pW.nodeOf t = some nd ∧
      pW.free_stack 2 = some (stack_pool.endH, p2) ∧
      stack_pool.emptyH stack_pool.endH = true ∧
      p2.free_nodes = 2 ∧
      p2.nodeOf t = some { nd with next := pW.free_nodes } ∧
      (∀ a, a ≠ t → p2.nodeOf a = pW.nodeOf a)) :=
  c4_free_stack_spec pW 2 [2, 1] (by decide) (by decide)

/-- Witness for the amended C6 at `pW`. -/
theorem c6_w :
    (pW._push (5 : Int) 2).isSome = true ∧
    (pW.free_stack 2).isSome = true ∧
    (_iterator.mk 2 pW).current = 2 ∧
    ((2 : Nat) ≠ 0 → (pW.nextOf 2).isSome = true) ∧
    pW.nextOf 0 = none :=
  c6_totality_amended pW 5 2 [2, 1] [3] (by decide) (by decide) (by decide)

/-- Witness for C7: freeing stack `3 → 2 → 1` of `pAB` leaves `5 → 4` intact. -/
theorem c7_w : ∃ p2, pAB.free_stack 3 = some (stack_pool.endH, p2) ∧
    p2.isChainB 5 [5, 4] = true ∧
    p2.chainVals [5, 4] = pAB.chainVals [5, 4] ∧
    p2.iterListF 2 5 = some (pAB.chainVals [5, 4]) ∧
    pAB.iterListF 2 5 = some (pAB.chainVals [5, 4]) :=
  c7_free_frame pAB 3 5 [3, 2, 1] [5, 4] (by decide) (by decide) (by decide)

/-- Witness for C8 with two distinct pools. -/
theorem c8_w :
    (_iterator.iterEq ⟨4, pW⟩ ⟨4, pAB⟩ = true ↔ (4 : Nat) = 4) ∧
    _iterator.iterNe ⟨4, pW⟩ ⟨4, pAB⟩ = !(_iterator.iterEq ⟨4, pW⟩ ⟨4, pAB⟩) :=
  c8_iterator_eq_ignores_pool 4 4 pW pAB

/-- Witness for C9 with iterators over two distinct pools. -/
theorem c9_w :
    ((⟨1, pW⟩ : _iterator Int).assign ⟨2, pAB⟩).current = (⟨2, pAB⟩ : _iterator Int).current ∧
    ((⟨1, pW⟩ : _iterator Int).assign ⟨2, pAB⟩).pool = (⟨1, pW⟩ : _iterator Int).pool ∧
    ((⟨1, pW⟩ : _iterator Int).assign ⟨2, pAB⟩).deref =
      (⟨1, pW⟩ : _iterator Int).pool.value (⟨2, pAB⟩ : _iterator Int).current ∧
    ((⟨1, pW⟩ : _iterator Int).assign ⟨2, pAB⟩).inc =
      ((⟨1, pW⟩ : _iterator Int).pool.nextOf (⟨2, pAB⟩ : _iterator Int).current).map
        (fun n => ⟨n, (⟨1, pW⟩ : _iterator Int).pool⟩) :=
  c9_assign_keeps_pool ⟨1, pW⟩ ⟨2, pAB⟩

/-- Witness for C10 at `pW` (also exercising the reuse branch). -/
theorem c10_w : ∃ r, pW.push (7 : Int) 2 = some r ∧ r.1 ≠ 0 ∧
    stack_pool.emptyH r.1 = false :=
  c10_push_not_sentinel pW 7 2 [3] (by decide)
